import Mathlib

/-!
Verification of the NAU course-classification scripts
(`ai_analysis.py`, `ai_course_analysis.py`, `ai_analysis_broad.py`).

The scripts are embedded shallowly:

* Python strings are `String` (lists of characters); missing CSV cells for
  title/description are filled with the empty string by the scripts
  (`fillna("")`) before any text handling, so the embedding works with
  `String` everywhere.  Key cells (`prefix`, `number`) are likewise modelled
  as strings, a missing cell being the empty string.
* A pandas dataframe of course rows is a `List Row`; the elementwise series
  operations of the scripts become `List.map` / `List.zipWith`.
* The compiled regular expressions of the scripts all have the shape
  `\bLITERAL\b` where the only regex operators are a trailing `(s)?`,
  `(s|al)?` or `[- ]`, each of which expands to finitely many literal
  alternatives.  A compiled pattern is therefore embedded as the list of its
  literal alternatives, and `pattern.search` as a scan for one of the
  alternatives occurring with non-word characters (or the ends of the
  string) on both sides.  Every alternative starts and ends with a word
  character, for which this is exactly the `\b` semantics.
* `thefuzz.fuzz.partial_ratio` is an external dependency, not part of the
  repository; functions that need it take the scorer as an explicit
  argument `pr`.  A concrete stand-in modelled from the spec is provided
  for witnesses (`partial_ratio_model`).
-/

set_option maxRecDepth 100000

namespace NAU

/-- A course row of the input CSV.  `pfx` embeds the `prefix` column
(`prefix` is a reserved word in Lean), `num` the `number` column.  Missing
cells are modelled as empty strings. -/
structure Row where
  pfx : String
  num : String
  title : String
  description : String
  deriving DecidableEq, Repr

/-- A row of the dataframe after the `is_ai_related` column has been added. -/
structure FlaggedRow where
  row : Row
  is_ai_related : Bool
  deriving DecidableEq, Repr

/-! ### Text normalizer (`normalize_text`, identical in all three scripts) -/

/-- Python `str.lower()` on the ASCII range: `A`..`Z` (65..90) shift to `a`..`z`.
Characters the scripts ever keep are ASCII, since `normalize_text` deletes
everything outside `[a-z0-9]`. -/
def pyLower (c : Char) : Char :=
  if 65 ≤ c.toNat ∧ c.toNat ≤ 90 then Char.ofNat (c.toNat + 32) else c

/-- Membership in the regex class `[a-z0-9]` (the characters `NON_ALNUM_RE`
keeps). -/
def isAlnumLower (c : Char) : Bool :=
  decide ((97 ≤ c.toNat ∧ c.toNat ≤ 122) ∨ (48 ≤ c.toNat ∧ c.toNat ≤ 57))

/-- Scanner for `NON_ALNUM_RE.sub(" ", s)`: `inRun` records whether the
previous character was part of a run of characters outside `[a-z0-9]`
(whose single replacement space has already been emitted). -/
def subRunsAux : Bool → List Char → List Char
  | _, [] => []
  | inRun, c :: cs =>
    if isAlnumLower c then c :: subRunsAux false cs
    else if inRun then subRunsAux true cs
    else ' ' :: subRunsAux true cs

/-- The substitution `NON_ALNUM_RE.sub(" ", s)`: every maximal run of characters outside
`[a-z0-9]` is replaced by a single space. -/
def subRuns (l : List Char) : List Char :=
  subRunsAux false l

/-- Python `s.split()`: the whitespace-separated words of `s`.  `subRuns` output
contains no whitespace other than `' '`, so splitting on `' '` is the
behaviour of Python `str.split()` there. -/
def splitWords : List Char → List (List Char)
  | [] => []
  | [c] => if c = ' ' then [] else [[c]]
  | c :: d :: cs =>
    if c = ' ' then splitWords (d :: cs)
    else if d = ' ' then [c] :: splitWords cs
    else
      match splitWords (d :: cs) with
      | [] => [[c]]
      | w :: ws => (c :: w) :: ws

/-- Python `sep.join(parts)`. -/
def joinChars (sep : List Char) : List (List Char) → List Char
  | [] => []
  | [w] => w
  | w :: ws => w ++ sep ++ joinChars sep ws

/-- The function `normalize_text` of the scripts: lowercase, replace non-alphanumeric
runs by single spaces, split on whitespace and re-join with single
spaces. -/
def normalize_text (text : String) : String :=
  String.mk (joinChars [' '] (splitWords (subRuns (text.data.map pyLower))))

/-! ### Word-boundary literal matching (the compiled `\b...\b` patterns) -/

/-- Regex word characters `\w` = `[A-Za-z0-9_]` (the texts searched are
normalized, hence ASCII). -/
def isWordChar (c : Char) : Bool :=
  decide ((65 ≤ c.toNat ∧ c.toNat ≤ 90) ∨ (97 ≤ c.toNat ∧ c.toNat ≤ 122) ∨
    (48 ≤ c.toNat ∧ c.toNat ≤ 57) ∨ c = '_')

/-- The anchor `\b` holds before a literal that starts with a word character iff the
preceding character (`none` at the start of the string) is not a word
character. -/
def boundaryBefore : Option Char → Bool
  | none => true
  | some c => !isWordChar c

/-- The anchor `\b` holds after a literal that ends with a word character iff the next
character (none at the end of the string) is not a word character. -/
def boundaryAfter : List Char → Bool
  | [] => true
  | c :: _ => !isWordChar c

/-- Scan of `t` for an occurrence of the literal `p` with `\b` on both
sides; `prev` is the character preceding the current position.  This is
`re.search` for the pattern `\bp\b` when `p` starts and ends with a word
character, which holds for every literal alternative below. -/
def searchBounded (p : List Char) : Option Char → List Char → Bool
  | prev, [] => boundaryBefore prev && p.isPrefixOf []
  | prev, c :: cs =>
    (boundaryBefore prev && p.isPrefixOf (c :: cs) && boundaryAfter ((c :: cs).drop p.length))
    || searchBounded p (some c) cs

/-- A compiled pattern is the list of its literal alternatives;
`pattern.search(t)` succeeds iff some alternative occurs word-bounded. -/
def regexSearch (alts : List (List Char)) (t : List Char) : Bool :=
  alts.any (fun p => searchBounded p none t)

/-- Builds the alternative lists from string literals. -/
def pat (ss : List String) : List (List Char) :=
  ss.map String.data

/-! ### The external fuzzy scorer -/

/-- Modelled from the spec: the external dependency `thefuzz.fuzz.partial_ratio`
(not part of the repository) is "the maximum partial-ratio similarity (a
string-alignment-based score where a phrase scores high if it appears as a
contiguous or near-contiguous substring of the longer text ...)", an
integer in `[0,100]`.  The model scores `100` exactly when the phrase
occurs as a contiguous substring and `0` otherwise; pipeline definitions
take an arbitrary scorer `pr` and this model instantiates it in concrete
evaluations. -/
def partial_ratio_model (text_norm phrase : String) : Nat :=
  if decide (phrase.data <:+: text_norm.data) then 100 else 0

/-! ### `ai_analysis.py` (the precise analyzer) -/

namespace AiAnalysis

-- PRIMARY_PATTERNS, in source order; the comment on each entry is the
-- regex from the script it expands.
def primary_patterns : List (List (List Char)) :=
  [ pat ["artificial intelligence"]            -- \bartificial intelligence\b
  , pat ["machine learning"]                   -- \bmachine learning\b
  , pat ["deep learning"]                      -- \bdeep learning\b
  , pat ["generative ai"]                      -- \bgenerative ai\b
  , pat ["large language model", "large language models"]  -- \blarge language model(s)?\b
  , pat ["llm"]                                -- \bllm\b
  , pat ["gpt"]                                -- \bgpt\b
  , pat ["chatgpt"]                            -- \bchatgpt\b
  , pat ["neural network", "neural networks"]  -- \bneural network(s)?\b
  , pat ["reinforcement learning"]             -- \breinforcement learning\b
  , pat ["natural language processing"]        -- \bnatural language processing\b
  , pat ["nlp"]                                -- \bnlp\b
  , pat ["computer vision"]                    -- \bcomputer vision\b
  , pat ["intelligent system", "intelligent systems"]      -- \bintelligent systems?\b
  , pat ["ai"]                                 -- \bai\b
  , pat ["agentic"]                            -- \bagentic\b
  , pat ["multi-agent", "multi agent", "multi-agents", "multi agents"]  -- \bmulti[- ]agent(s)?\b
  , pat ["intelligent agent", "intelligent agents"]        -- \bintelligent agents?\b
  ]

-- SECONDARY_PATTERNS.
def secondary_patterns : List (List (List Char)) :=
  [ pat ["ethic", "ethics", "ethical"]         -- \bethic(s|al)?\b
  , pat ["agent", "agents"]                    -- \bagent(s)?\b
  , pat ["autonomous system", "autonomous systems"]        -- \bautonomous systems?\b
  ]

-- CONTEXT_PATTERNS.
def context_patterns : List (List (List Char)) :=
  [ pat ["ai"]                                 -- \bai\b
  , pat ["artificial intelligence"]            -- \bartificial intelligence\b
  , pat ["machine learning"]                   -- \bmachine learning\b
  , pat ["deep learning"]                      -- \bdeep learning\b
  , pat ["generative ai"]                      -- \bgenerative ai\b
  , pat ["large language model", "large language models"]  -- \blarge language model(s)?\b
  , pat ["llm"]                                -- \bllm\b
  , pat ["gpt"]                                -- \bgpt\b
  , pat ["chatgpt"]                            -- \bchatgpt\b
  , pat ["neural network", "neural networks"]  -- \bneural network(s)?\b
  , pat ["natural language processing"]        -- \bnatural language processing\b
  , pat ["nlp"]                                -- \bnlp\b
  , pat ["computer vision"]                    -- \bcomputer vision\b
  , pat ["intelligent system", "intelligent systems"]      -- \bintelligent systems?\b
  ]

-- FUZZY_PHRASES.
def FUZZY_PHRASES : List String :=
  [ "artificial intelligence", "machine learning", "deep learning"
  , "generative ai", "large language model", "neural network"
  , "reinforcement learning", "natural language processing"
  , "computer vision", "intelligent systems", "intelligent agent"
  , "multi agent", "agentic" ]

/-- The list `fuzzy_phrases = [normalize_text(keyword) for keyword in FUZZY_PHRASES]`. -/
def fuzzy_phrases_norm : List String :=
  FUZZY_PHRASES.map normalize_text

/-- The function `matches_any(text_norm, patterns)` of `ai_analysis.py`. -/
def matches_any (text_norm : String) (patterns : List (List (List Char))) : Bool :=
  if text_norm = "" then false
  else patterns.any (fun p => regexSearch p text_norm.data)

/-- The function `max_fuzzy_score(text_norm, keyword_norms)`: the maximum scorer value
over the phrase list (the phrase lists of the scripts are non-empty, so
the Python `max` over a non-empty sequence of scores in `[0,100]` agrees
with a fold from `0`). -/
def max_fuzzy_score (pr : String → String → Nat) (text_norm : String)
    (keyword_norms : List String) : Nat :=
  if text_norm = "" then 0
  else (keyword_norms.map (fun k => pr text_norm k)).foldl max 0

/-- The joint text of a row, `title + " " + description`. -/
def row_text (r : Row) : String :=
  r.title ++ " " ++ r.description

/-- The normalized joint text of a row (the `text_norm_series` entry for
that row). -/
def row_text_norm (r : Row) : String :=
  normalize_text (row_text r)

/-- The series `text_norm_series = (title + " " + description).map(normalize_text)`. -/
def text_norm_series (rows : List Row) : List String :=
  rows.map row_text_norm

/-- The `primary_match` series. -/
def primary_match_series (rows : List Row) : List Bool :=
  (text_norm_series rows).map (fun t => matches_any t primary_patterns)

/-- The `secondary_match` series. -/
def secondary_match_series (rows : List Row) : List Bool :=
  (text_norm_series rows).map (fun t => matches_any t secondary_patterns)

/-- The `context_match` series. -/
def context_match_series (rows : List Row) : List Bool :=
  (text_norm_series rows).map (fun t => matches_any t context_patterns)

/-- The series `keyword_match = primary_match | (secondary_match & context_match)`,
the elementwise series combination of the script. -/
def keyword_match_series (rows : List Row) : List Bool :=
  List.zipWith (fun a b => a || b) (primary_match_series rows)
    (List.zipWith (fun a b => a && b) (secondary_match_series rows) (context_match_series rows))

/-- The tiered keyword decision on one normalized text. -/
def keyword_match (t : String) : Bool :=
  matches_any t primary_patterns
    || (matches_any t secondary_patterns && matches_any t context_patterns)

/-- The test `fuzzy_scores >= args.fuzzy_threshold` on one normalized text. -/
def fuzzy_hit (pr : String → String → Nat) (th : Nat) (t : String) : Bool :=
  decide (th ≤ max_fuzzy_score pr t fuzzy_phrases_norm)

/-- The per-row `is_ai_related` value:
`keyword_match | fuzzy_match`, with `fuzzy_match = False` when
`--disable-fuzzy` was given. -/
def is_ai_related (pr : String → String → Nat) (th : Nat) (disableFuzzy : Bool)
    (r : Row) : Bool :=
  keyword_match (row_text_norm r)
    || (if disableFuzzy then false else fuzzy_hit pr th (row_text_norm r))

end AiAnalysis

/-! ### Sorting and deduplication primitives (pandas `sort_values`,
`drop_duplicates`) -/

/-- The `(prefix, number)` grouping key of a row. -/
def key (r : Row) : String × String :=
  (r.pfx, r.num)

/-- Lexicographic code-point comparison of character lists: Python's `<`
on strings (`Char.toNat` is the code point), the comparison pandas applies
to string columns and `sorted(...)` applies to strings. -/
def charListLT : List Char → List Char → Bool
  | [], [] => false
  | [], _ :: _ => true
  | _ :: _, [] => false
  | a :: as, b :: bs =>
    if a.toNat < b.toNat then true
    else if b.toNat < a.toNat then false
    else charListLT as bs

/-- Python `a < b` on strings. -/
def strLT (a b : String) : Bool :=
  charListLT a.data b.data

/-- Python `a <= b` on strings: `<` or equal. -/
def strLE (a b : String) : Bool :=
  strLT a b || decide (a = b)

/-- Ascending lexicographic order on the `(prefix, number)` key, the order
of `df.sort_values([prefix_col, number_col])` (pandas compares the string
columns left to right). -/
def keyLEb (a b : Row) : Bool :=
  strLT a.pfx b.pfx || (decide (a.pfx = b.pfx) && strLE a.num b.num)

/-- The comparison `keyLEb` as a relation. -/
def keyLE (a b : Row) : Prop :=
  keyLEb a b = true

instance : DecidableRel keyLE :=
  fun a b => inferInstanceAs (Decidable (keyLEb a b = true))

/-- The comparison `strLE` as a relation. -/
def strLEp (a b : String) : Prop :=
  strLE a b = true

instance : DecidableRel strLEp :=
  fun a b => inferInstanceAs (Decidable (strLE a b = true))

/-- pandas `df.sort_values([prefix_col, number_col])`.  pandas' default sort is a
deterministic comparison sort; its tie order among rows with equal keys is
unspecified, modelled here by the (stable) insertion sort. -/
def sortRows (rows : List Row) : List Row :=
  List.insertionSort keyLE rows

/-- Ascending sort of a list of strings (`sorted(...)` /
`sort_values("prefix")`). -/
def sortStr (l : List String) : List String :=
  List.insertionSort strLEp l

/-- Scanner for pandas `drop_duplicates`: `seen` is the set of keys already
retained. -/
def drop_duplicates_aux {α : Type} (k : α → String × String)
    (seen : List (String × String)) : List α → List α
  | [] => []
  | x :: xs =>
    if k x ∈ seen then drop_duplicates_aux k seen xs
    else x :: drop_duplicates_aux k (k x :: seen) xs

/-- pandas `drop_duplicates` on a key: keeps the first occurrence of every
key, in order. -/
def drop_duplicates {α : Type} (k : α → String × String) (l : List α) : List α :=
  drop_duplicates_aux k [] l

/-- Python `sep.join(parts)` for strings. -/
def joinSep (sep : String) : List String → String
  | [] => ""
  | [x] => x
  | x :: xs => x ++ sep ++ joinSep sep xs

namespace AiAnalysis

/-- The `ai_flags` value for one key: `groupby([prefix, number]).any()` of
the `is_ai_related` column. -/
def group_any_flag (pr : String → String → Nat) (th : Nat) (d : Bool)
    (rows : List Row) (k : String × String) : Bool :=
  rows.any (fun r => decide (key r = k) && is_ai_related pr th d r)

/-- The `unique_courses` table:
`df.sort_values([prefix, number]).drop_duplicates(subset=[prefix, number])`
supplies the canonical row of each key, and the merged `ai_flags` column
supplies the aggregated flag.  Every canonical row's key occurs in `rows`,
so the left merge always finds a flag and the trailing `fillna(False)` is
the identity here. -/
def unique_courses (pr : String → String → Nat) (th : Nat) (d : Bool)
    (rows : List Row) : List FlaggedRow :=
  (drop_duplicates key (sortRows rows)).map
    (fun r => ⟨r, group_any_flag pr th d rows (key r)⟩)

/-- The table `unique_courses.groupby(prefix_col, dropna=False).size()`, renamed and
sorted by prefix: one `(prefix, total_courses)` entry per distinct prefix
value of the unique-course table (an empty prefix value is a group like
any other). -/
def prefix_totals (pr : String → String → Nat) (th : Nat) (d : Bool)
    (rows : List Row) : List (String × Nat) :=
  (sortStr ((unique_courses pr th d rows).map (fun u => u.row.pfx)).dedup).map
    (fun p => (p, ((unique_courses pr th d rows).filter
      (fun u => decide (u.row.pfx = p))).length))

/-- The `total_unique_courses` summary value, `len(unique_courses)`. -/
def total_unique_courses (pr : String → String → Nat) (th : Nat) (d : Bool)
    (rows : List Row) : Nat :=
  (unique_courses pr th d rows).length

end AiAnalysis

/-! ### `ai_course_analysis.py` (the legacy keyword analyzer) -/

namespace AiCourseAnalysis

-- KEYWORDS of the legacy script, verbatim.
def KEYWORDS : List String :=
  [ "Agent", "Agentic", "Ethics", "LLM", "Deep Learning", "Generative AI"
  , "Artificial Intelligence", "Machine Learning", "GPT", "ChatGPT" ]

/-- The list `keyword_norms = [normalize_text(keyword) for keyword in KEYWORDS]`. -/
def keyword_norms : List String :=
  KEYWORDS.map normalize_text

/-- The function `contains_keyword(text_norm, keyword_norms)`: Python
`keyword in text_norm`, unanchored substring containment. -/
def contains_keyword (text_norm : String) (kns : List String) : Bool :=
  if text_norm = "" then false
  else kns.any (fun k => decide (k.data <:+: text_norm.data))

/-- The legacy per-row flag: `keyword_match | fuzzy_match` where
`keyword_match = contains_keyword(...)` and
`fuzzy_match = max_fuzzy_score(text, keyword_norms) >= args.fuzzy_threshold`
(`max_fuzzy_score` is the same function as in `ai_analysis.py`; the legacy
script has no fuzzy-disable option and fuzzes against `keyword_norms`
itself). -/
def is_ai_related (pr : String → String → Nat) (th : Nat) (r : Row) : Bool :=
  contains_keyword (AiAnalysis.row_text_norm r) keyword_norms
    || decide (th ≤ AiAnalysis.max_fuzzy_score pr (AiAnalysis.row_text_norm r) keyword_norms)

/-- The dataframe after `df["is_ai_related"] = keyword_match | fuzzy_match`. -/
def classified (pr : String → String → Nat) (th : Nat) (rows : List Row) :
    List FlaggedRow :=
  rows.map (fun r => ⟨r, is_ai_related pr th r⟩)

/-- The legacy `unique_courses = df.drop_duplicates(subset=[prefix, number])`:
no sort, no flag aggregation — the first occurrence of each key keeps its
own row flag. -/
def unique_courses (pr : String → String → Nat) (th : Nat) (rows : List Row) :
    List FlaggedRow :=
  drop_duplicates (fun fr => key fr.row) (classified pr th rows)

end AiCourseAnalysis

/-! ### `ai_analysis_broad.py` (the broad-recall variant) -/

namespace AiAnalysisBroad

-- BROAD_PATTERNS: `(label, regex)` pairs, in source order; the comment on
-- each entry is the regex it expands.
def BROAD_PATTERNS : List (String × List (List Char)) :=
  [ ("artificial_intelligence", pat ["artificial intelligence"])  -- \bartificial intelligence\b
  , ("ai", pat ["ai"])                                            -- \bai\b
  , ("machine_learning", pat ["machine learning"])                -- \bmachine learning\b
  , ("deep_learning", pat ["deep learning"])                      -- \bdeep learning\b
  , ("generative_ai", pat ["generative ai"])                      -- \bgenerative ai\b
  , ("llm", pat ["large language model", "large language models"])  -- \blarge language model(s)?\b
  , ("llm", pat ["llm"])                                          -- \bllm\b
  , ("gpt", pat ["gpt"])                                          -- \bgpt\b
  , ("chatgpt", pat ["chatgpt"])                                  -- \bchatgpt\b
  , ("neural_network", pat ["neural network", "neural networks"]) -- \bneural network(s)?\b
  , ("reinforcement_learning", pat ["reinforcement learning"])    -- \breinforcement learning\b
  , ("nlp", pat ["natural language processing"])                  -- \bnatural language processing\b
  , ("nlp", pat ["nlp"])                                          -- \bnlp\b
  , ("computer_vision", pat ["computer vision"])                  -- \bcomputer vision\b
  , ("machine_vision", pat ["machine vision"])                    -- \bmachine vision\b
  , ("image_processing", pat ["image processing"])                -- \bimage processing\b
  , ("pattern_recognition", pat ["pattern recognition"])          -- \bpattern recognition\b
  , ("data_mining", pat ["data mining"])                          -- \bdata mining\b
  , ("information_retrieval", pat ["information retrieval"])      -- \binformation retrieval\b
  , ("expert_systems", pat ["expert system", "expert systems"])   -- \bexpert systems?\b
  , ("knowledge_representation", pat ["knowledge representation"])  -- \bknowledge representation\b
  , ("intelligent_systems", pat ["intelligent system", "intelligent systems"])  -- \bintelligent systems?\b
  , ("intelligent_agents", pat ["intelligent agent", "intelligent agents"])     -- \bintelligent agents?\b
  , ("autonomous_systems", pat ["autonomous system", "autonomous systems"])     -- \bautonomous systems?\b
  , ("autonomous", pat ["autonomous"])                            -- \bautonomous\b
  , ("robotics", pat ["robotic", "robotics"])                     -- \brobotics?\b
  , ("computational_intelligence", pat ["computational intelligence"])  -- \bcomputational intelligence\b
  , ("speech_recognition", pat ["speech recognition"])            -- \bspeech recognition\b
  , ("recommendation_systems", pat ["recommendation system", "recommendation systems"])  -- \brecommendation systems?\b
  , ("recommender_systems", pat ["recommender system", "recommender systems"])  -- \brecommender systems?\b
  , ("decision_support", pat ["decision support"])                -- \bdecision support\b
  , ("intelligent_control", pat ["intelligent control"])          -- \bintelligent control\b
  , ("data_science", pat ["data science"])                        -- \bdata science\b
  ]

-- BROAD_FUZZY_PHRASES, verbatim.
def BROAD_FUZZY_PHRASES : List String :=
  [ "artificial intelligence", "machine learning", "deep learning"
  , "generative ai", "large language model", "neural network"
  , "reinforcement learning", "natural language processing"
  , "computer vision", "pattern recognition", "data mining"
  , "information retrieval", "expert systems", "knowledge representation"
  , "intelligent systems", "intelligent agent", "autonomous systems"
  , "computational intelligence", "speech recognition"
  , "recommendation systems", "recommender systems", "decision support"
  , "intelligent control", "data science" ]

/-- The list `fuzzy_phrases = [normalize_text(term) for term in BROAD_FUZZY_PHRASES]`. -/
def broad_fuzzy_norms : List String :=
  BROAD_FUZZY_PHRASES.map normalize_text

/-- The row value `hits = [label for label, rx in compiled if rx.search(text_norm)]`. -/
def broad_hits (t : String) : List String :=
  (BROAD_PATTERNS.filter (fun lp => regexSearch lp.2 t.data)).map Prod.fst

/-- The row value `reason = ",".join(sorted(set(hits))) if hits else ""`. -/
def broad_reason (t : String) : String :=
  if (broad_hits t).isEmpty then "" else joinSep "," (sortStr (broad_hits t).dedup)

/-- The function `best_fuzzy_match(text_norm, phrases)`: the first phrase attaining the
maximal scorer value, starting from `best_score = -1`. -/
def best_fuzzy_match (pr : String → String → Nat) (t : String)
    (phrases : List String) : Int × String :=
  if t = "" then (0, "")
  else phrases.foldl
    (fun best ph => if (pr t ph : Int) > best.1 then ((pr t ph : Int), ph) else best)
    (-1, "")

/-- The `fuzzy_match` entry of a row: `score >= args.fuzzy_threshold`, `False`
under `--disable-fuzzy`. -/
def broad_fuzzy_hit (pr : String → String → Nat) (th : Nat) (dis : Bool)
    (t : String) : Bool :=
  if dis then false
  else decide ((th : Int) ≤ (best_fuzzy_match pr t broad_fuzzy_norms).1)

/-- The `fuzzy_phrases_matched` entry of a row: the best phrase when the score
reached the threshold, `""` otherwise (and under `--disable-fuzzy`). -/
def broad_fuzzy_phrase (pr : String → String → Nat) (th : Nat) (dis : Bool)
    (t : String) : String :=
  if dis then ""
  else if decide ((th : Int) ≤ (best_fuzzy_match pr t broad_fuzzy_norms).1)
    then (best_fuzzy_match pr t broad_fuzzy_norms).2 else ""

/-- The column `df["is_ai_candidate"] = [m or f for m, f in zip(matched, fuzzy_match)]`
with `matched = bool(hits)`. -/
def is_ai_candidate (pr : String → String → Nat) (th : Nat) (dis : Bool)
    (r : Row) : Bool :=
  !(broad_hits (AiAnalysis.row_text_norm r)).isEmpty
    || broad_fuzzy_hit pr th dis (AiAnalysis.row_text_norm r)

/-- The `ai_candidate_reason` entry of a row: the label reason when some
rule matched, else `fuzzy:<phrase>` when the fuzzy score reached the
threshold with a non-empty phrase, else `""`. -/
def broad_final_reason (pr : String → String → Nat) (th : Nat) (dis : Bool)
    (r : Row) : String :=
  if broad_reason (AiAnalysis.row_text_norm r) ≠ "" then
    broad_reason (AiAnalysis.row_text_norm r)
  else if broad_fuzzy_hit pr th dis (AiAnalysis.row_text_norm r)
      && broad_fuzzy_phrase pr th dis (AiAnalysis.row_text_norm r) ≠ "" then
    "fuzzy:" ++ broad_fuzzy_phrase pr th dis (AiAnalysis.row_text_norm r)
  else ""

end AiAnalysisBroad

/-! ### Concrete sample rows used in concrete evaluations -/

def ethics_row : Row := ⟨"PHI", "331", "Professional Ethics", "Discusses moral responsibility."⟩

def ethics_ai_row : Row :=
  ⟨"PHI", "331", "Professional Ethics",
    "Discusses moral responsibility. Uses artificial intelligence and raises ethics concerns."⟩

def cs599_old : Row := ⟨"CS", "599", "Systems Seminar", "Covers distributed topics."⟩

def cs599_new : Row := ⟨"CS", "599", "Systems Seminar", "Covers machine learning."⟩

def meta_row : Row := ⟨"INF", "120", "Metadata Sciences", ""⟩

def ml_row : Row := ⟨"CS", "470", "Machine Learning", "Supervised and unsupervised methods."⟩

def reagents_row : Row := ⟨"CHM", "350", "Reagents", "Quantitative reagents lab."⟩

def mat_row : Row := ⟨"MAT", "226", "Discrete Math", "Logic and sets."⟩

def cs_row : Row := ⟨"CS", "101", "Intro", "Basics."⟩

def blank_prefix_row : Row := ⟨"", "101", "Course Title", "Course description."⟩

/-! ## Properties of the text normalizer -/

theorem isAlnumLower_ne_space {c : Char} (h : isAlnumLower c = true) : c ≠ ' ' := by
  intro hc
  subst hc
  exact absurd h (by decide)

theorem pyLower_eq_self_of_clean (c : Char) (h : isAlnumLower c = true ∨ c = ' ') :
    pyLower c = c := by
  have hc : ¬(65 ≤ c.toNat ∧ c.toNat ≤ 90) := by
    rcases h with h | h
    · simp only [isAlnumLower, decide_eq_true_eq] at h
      omega
    · subst h
      decide
  simp [pyLower, hc]

/-- Every character that `subRuns` emits is in `[a-z0-9]` or is a space. -/
theorem subRunsAux_clean (l : List Char) :
    ∀ b : Bool, ∀ c ∈ subRunsAux b l, isAlnumLower c = true ∨ c = ' ' := by
  induction l with
  | nil =>
    intro b c hc
    simp [subRunsAux] at hc
  | cons a as ih =>
    intro b c hc
    by_cases ha : isAlnumLower a = true
    · simp only [subRunsAux, if_pos ha, List.mem_cons] at hc
      rcases hc with rfl | hc
      · exact Or.inl ha
      · exact ih false c hc
    · simp only [subRunsAux, if_neg ha] at hc
      cases b with
      | true => exact ih true c (by simpa using hc)
      | false =>
        simp only [Bool.false_eq_true, if_false, List.mem_cons] at hc
        rcases hc with rfl | hc
        · exact Or.inr rfl
        · exact ih true c hc

/-- The compiled cons-cons equation of `splitWords`. -/
theorem splitWords_cons_cons (c d : Char) (cs : List Char) :
    splitWords (c :: d :: cs) =
      if c = ' ' then splitWords (d :: cs)
      else if d = ' ' then [c] :: splitWords cs
      else
        match splitWords (d :: cs) with
        | [] => [[c]]
        | w :: ws => (c :: w) :: ws := rfl

theorem splitWords_one (c : Char) :
    splitWords [c] = if c = ' ' then [] else [[c]] := rfl

/-- The compiled cons-cons equation of `joinChars`. -/
theorem joinChars_cons_cons (sep w w' : List Char) (ws : List (List Char)) :
    joinChars sep (w :: w' :: ws) = w ++ sep ++ joinChars sep (w' :: ws) := rfl

/-- The compiled cons equation of `subRunsAux`. -/
theorem subRunsAux_cons (b : Bool) (c : Char) (cs : List Char) :
    subRunsAux b (c :: cs) =
      if isAlnumLower c then c :: subRunsAux false cs
      else if b then subRunsAux true cs
      else ' ' :: subRunsAux true cs := rfl

/-- The words that `splitWords` produces are non-empty, and their
characters are non-space characters of the input. -/
theorem splitWords_chars : ∀ l : List Char,
    ∀ w ∈ splitWords l, w ≠ [] ∧ ∀ c ∈ w, c ∈ l ∧ c ≠ ' ' := by
  intro l
  induction l using splitWords.induct with
  | case1 =>
    intro w hw
    simp [splitWords] at hw
  | case2 =>
    intro w hw
    simp [splitWords_one] at hw
  | case3 c hc =>
    intro w hw
    rw [splitWords_one, if_neg hc] at hw
    simp only [List.mem_singleton] at hw
    subst hw
    refine ⟨by simp, ?_⟩
    intro e he
    simp only [List.mem_singleton] at he
    subst he
    exact ⟨by simp, hc⟩
  | case4 d cs ih =>
    intro w hw
    rw [splitWords_cons_cons, if_pos rfl] at hw
    obtain ⟨hne, hmem⟩ := ih w hw
    exact ⟨hne, fun e he => ⟨List.mem_cons_of_mem _ (hmem e he).1, (hmem e he).2⟩⟩
  | case5 c cs hc ih =>
    intro w hw
    rw [splitWords_cons_cons, if_neg hc, if_pos rfl] at hw
    rcases List.mem_cons.mp hw with rfl | hw
    · refine ⟨by simp, ?_⟩
      intro e he
      simp only [List.mem_singleton] at he
      subst he
      exact ⟨by simp, hc⟩
    · obtain ⟨hne, hmem⟩ := ih w hw
      exact ⟨hne, fun e he =>
        ⟨List.mem_cons_of_mem _ (List.mem_cons_of_mem _ (hmem e he).1), (hmem e he).2⟩⟩
  | case6 c d cs hc hd hnil ih =>
    intro w hw
    have heq2 : splitWords (c :: d :: cs) = [[c]] := by
      rw [splitWords_cons_cons, if_neg hc, if_neg hd, hnil]
    rw [heq2] at hw
    simp only [List.mem_singleton] at hw
    subst hw
    refine ⟨by simp, ?_⟩
    intro e he
    simp only [List.mem_singleton] at he
    subst he
    exact ⟨by simp, hc⟩
  | case7 c d cs hc hd w0 ws0 heq ih =>
    intro w hw
    have heq2 : splitWords (c :: d :: cs) = (c :: w0) :: ws0 := by
      rw [splitWords_cons_cons, if_neg hc, if_neg hd, heq]
    rw [heq2] at hw
    rcases List.mem_cons.mp hw with rfl | hw
    · have h0 := ih w0 (by rw [heq]; exact List.mem_cons_self _ _)
      refine ⟨by simp, ?_⟩
      intro e he
      rcases List.mem_cons.mp he with rfl | he
      · exact ⟨by simp, hc⟩
      · exact ⟨List.mem_cons_of_mem _ (h0.2 e he).1, (h0.2 e he).2⟩
    · have h0 := ih w (by rw [heq]; exact List.mem_cons_of_mem _ hw)
      exact ⟨h0.1, fun e he => ⟨List.mem_cons_of_mem _ (h0.2 e he).1, (h0.2 e he).2⟩⟩

theorem splitWords_word : ∀ w : List Char, w ≠ [] → (∀ c ∈ w, c ≠ ' ') →
    splitWords w = [w] := by
  intro w
  induction w with
  | nil => intro hne _; exact absurd rfl hne
  | cons a t ih =>
    intro _ hns
    have ha : ¬(a = ' ') := hns a (by simp)
    cases t with
    | nil => simp [splitWords_one, ha]
    | cons b t' =>
      have hb : ¬(b = ' ') := hns b (by simp)
      have ih' := ih (by simp) (fun c hc => hns c (List.mem_cons_of_mem _ hc))
      rw [splitWords_cons_cons, if_neg ha, if_neg hb, ih']

theorem splitWords_word_append : ∀ w : List Char, ∀ rest : List Char, w ≠ [] →
    (∀ c ∈ w, c ≠ ' ') →
    splitWords (w ++ ' ' :: rest) = w :: splitWords rest := by
  intro w rest
  induction w with
  | nil => intro hne _; exact absurd rfl hne
  | cons a t ih =>
    intro _ hns
    have ha : ¬(a = ' ') := hns a (by simp)
    cases t with
    | nil =>
      rw [List.cons_append, List.nil_append, splitWords_cons_cons, if_neg ha, if_pos rfl]
    | cons b t' =>
      have hb : ¬(b = ' ') := hns b (by simp)
      have ih' := ih (by simp) (fun c hc => hns c (List.mem_cons_of_mem _ hc))
      rw [List.cons_append] at ih' ⊢
      rw [List.cons_append]
      rw [splitWords_cons_cons, if_neg ha, if_neg hb, ih']

theorem splitWords_joinChars : ∀ ws : List (List Char),
    (∀ w ∈ ws, w ≠ [] ∧ ∀ c ∈ w, c ≠ ' ') →
    splitWords (joinChars [' '] ws) = ws := by
  intro ws
  induction ws with
  | nil => intro _; rfl
  | cons w ws ih =>
    intro h
    have hw := h w (List.mem_cons_self _ _)
    cases ws with
    | nil => exact splitWords_word w hw.1 hw.2
    | cons w' ws' =>
      have hrest := ih (fun v hv => h v (List.mem_cons_of_mem _ hv))
      have hjoin : joinChars [' '] (w :: w' :: ws') = w ++ ' ' :: joinChars [' '] (w' :: ws') := by
        rw [joinChars_cons_cons, List.append_assoc, List.singleton_append]
      rw [hjoin, splitWords_word_append w _ hw.1 hw.2, hrest]

theorem subRunsAux_word : ∀ w : List Char, ∀ rest : List Char,
    (∀ c ∈ w, isAlnumLower c = true) →
    subRunsAux false (w ++ rest) = w ++ subRunsAux false rest := by
  intro w rest
  induction w with
  | nil => intro _; rfl
  | cons a t ih =>
    intro hw
    rw [List.cons_append, subRunsAux_cons, if_pos (hw a (by simp)),
      ih (fun c hc => hw c (List.mem_cons_of_mem _ hc)), List.cons_append]

theorem joinChars_cons_head (c' : Char) (wt : List Char) (ws : List (List Char)) :
    ∃ t, joinChars [' '] ((c' :: wt) :: ws) = c' :: t := by
  cases ws with
  | nil => exact ⟨wt, rfl⟩
  | cons w ws =>
    refine ⟨wt ++ [' '] ++ joinChars [' '] (w :: ws), ?_⟩
    rw [joinChars_cons_cons]
    simp [List.append_assoc]

theorem subRuns_joinChars : ∀ ws : List (List Char),
    (∀ w ∈ ws, w ≠ [] ∧ ∀ c ∈ w, isAlnumLower c = true) →
    subRuns (joinChars [' '] ws) = joinChars [' '] ws := by
  intro ws
  induction ws with
  | nil => intro _; rfl
  | cons w ws ih =>
    intro h
    have hw := h w (List.mem_cons_self _ _)
    cases ws with
    | nil =>
      show subRunsAux false (joinChars [' '] [w]) = joinChars [' '] [w]
      have h1 := subRunsAux_word w [] hw.2
      rw [List.append_nil] at h1
      have h0 : subRunsAux false ([] : List Char) = [] := rfl
      rw [h0, List.append_nil] at h1
      exact h1
    | cons w' ws' =>
      have hw' := h w' (List.mem_cons_of_mem _ (List.mem_cons_self _ _))
      have hrest := ih (fun v hv => h v (List.mem_cons_of_mem _ hv))
      have hjoin : joinChars [' '] (w :: w' :: ws') = w ++ ' ' :: joinChars [' '] (w' :: ws') := by
        rw [joinChars_cons_cons, List.append_assoc, List.singleton_append]
      obtain ⟨c', wt, hwt⟩ : ∃ c' wt, w' = c' :: wt := by
        cases w' with
        | nil => exact absurd rfl hw'.1
        | cons x xs => exact ⟨x, xs, rfl⟩
      obtain ⟨t, ht⟩ := joinChars_cons_head c' wt ws'
      have hc' : isAlnumLower c' = true := hw'.2 c' (by simp [hwt])
      have hfalse : subRunsAux false (joinChars [' '] (w' :: ws')) = joinChars [' '] (w' :: ws') :=
        hrest
      rw [hwt] at hfalse
      rw [ht] at hfalse
      have htail : subRunsAux false t = t := by
        rw [subRunsAux_cons, if_pos hc'] at hfalse
        simpa using hfalse
      have htrue : subRunsAux true (joinChars [' '] (w' :: ws')) = joinChars [' '] (w' :: ws') := by
        rw [hwt, ht, subRunsAux_cons, if_pos hc', htail]
      show subRunsAux false (joinChars [' '] (w :: w' :: ws')) = joinChars [' '] (w :: w' :: ws')
      rw [hjoin, subRunsAux_word w _ hw.2]
      congr 1
      rw [subRunsAux_cons, if_neg (by decide), if_neg (Bool.false_ne_true), htrue]

theorem mem_joinChars : ∀ ws : List (List Char), ∀ c : Char,
    c ∈ joinChars [' '] ws → (∃ w ∈ ws, c ∈ w) ∨ c = ' ' := by
  intro ws
  induction ws with
  | nil =>
    intro c hc
    simp [joinChars] at hc
  | cons w ws ih =>
    intro c hc
    cases ws with
    | nil => exact Or.inl ⟨w, by simp, hc⟩
    | cons w' ws' =>
      rw [joinChars_cons_cons, List.append_assoc, List.singleton_append] at hc
      rcases List.mem_append.mp hc with hc | hc
      · exact Or.inl ⟨w, by simp, hc⟩
      · rcases List.mem_cons.mp hc with rfl | hc
        · exact Or.inr rfl
        · rcases ih c hc with ⟨v, hv, hcv⟩ | hsp
          · exact Or.inl ⟨v, List.mem_cons_of_mem _ hv, hcv⟩
          · exact Or.inr hsp

theorem map_pyLower_clean (l : List Char)
    (h : ∀ c ∈ l, isAlnumLower c = true ∨ c = ' ') : l.map pyLower = l := by
  conv_rhs => rw [← List.map_id l]
  exact List.map_congr_left (fun c hc => pyLower_eq_self_of_clean c (h c hc))

theorem normalize_text_idem (s : String) :
    normalize_text (normalize_text s) = normalize_text s := by
  unfold normalize_text
  set ws := splitWords (subRuns (s.data.map pyLower)) with hws
  have hdata : (String.mk (joinChars [' '] ws)).data = joinChars [' '] ws := rfl
  rw [hdata]
  have hclean : ∀ c ∈ subRuns (s.data.map pyLower), isAlnumLower c = true ∨ c = ' ' :=
    fun c hc => subRunsAux_clean _ false c hc
  have hgood : ∀ w ∈ ws, w ≠ [] ∧ ∀ c ∈ w, isAlnumLower c = true := by
    intro w hw
    obtain ⟨hne, hmem⟩ := splitWords_chars _ w hw
    refine ⟨hne, fun c hc => ?_⟩
    rcases hclean c (hmem c hc).1 with h | h
    · exact h
    · exact absurd h (hmem c hc).2
  have hgood' : ∀ w ∈ ws, w ≠ [] ∧ ∀ c ∈ w, c ≠ ' ' :=
    fun w hw => ⟨(hgood w hw).1, fun c hc => isAlnumLower_ne_space ((hgood w hw).2 c hc)⟩
  have hcleanjoin : ∀ c ∈ joinChars [' '] ws, isAlnumLower c = true ∨ c = ' ' := by
    intro c hc
    rcases mem_joinChars ws c hc with ⟨w, hw, hcw⟩ | h
    · exact Or.inl ((hgood w hw).2 c hcw)
    · exact Or.inr h
  rw [map_pyLower_clean _ hcleanjoin, subRuns_joinChars ws hgood,
    splitWords_joinChars ws hgood']

/-! ## Generic list lemmas for the aggregation engine -/

theorem drop_duplicates_aux_cons {α : Type} (k : α → String × String)
    (seen : List (String × String)) (a : α) (as : List α) :
    drop_duplicates_aux k seen (a :: as) =
      if k a ∈ seen then drop_duplicates_aux k seen as
      else a :: drop_duplicates_aux k (k a :: seen) as := rfl

theorem mem_of_mem_drop_duplicates_aux {α : Type} (k : α → String × String) :
    ∀ l : List α, ∀ seen, ∀ x ∈ drop_duplicates_aux k seen l, x ∈ l := by
  intro l
  induction l with
  | nil => intro seen x hx; simp [drop_duplicates_aux] at hx
  | cons a as ih =>
    intro seen x hx
    rw [drop_duplicates_aux_cons] at hx
    by_cases h : k a ∈ seen
    · rw [if_pos h] at hx
      exact List.mem_cons_of_mem _ (ih seen x hx)
    · rw [if_neg h] at hx
      rcases List.mem_cons.mp hx with rfl | hx
      · exact List.mem_cons_self _ _
      · exact List.mem_cons_of_mem _ (ih _ x hx)

/-- Every element retained by `drop_duplicates` is the first element of the
input carrying its key. -/
theorem find?_drop_duplicates_aux {α : Type} (k : α → String × String) :
    ∀ l : List α, ∀ seen, ∀ u ∈ drop_duplicates_aux k seen l,
      k u ∉ seen ∧ l.find? (fun y => decide (k y = k u)) = some u := by
  intro l
  induction l with
  | nil => intro seen u hu; simp [drop_duplicates_aux] at hu
  | cons a as ih =>
    intro seen u hu
    rw [drop_duplicates_aux_cons] at hu
    by_cases h : k a ∈ seen
    · rw [if_pos h] at hu
      obtain ⟨hns, hfind⟩ := ih seen u hu
      have hne : ¬(k a = k u) := fun he => hns (he ▸ h)
      exact ⟨hns, by rw [List.find?_cons_of_neg _ (by simpa using hne), hfind]⟩
    · rw [if_neg h] at hu
      rcases List.mem_cons.mp hu with rfl | hu
      · exact ⟨h, by rw [List.find?_cons_of_pos _ (by simp)]⟩
      · obtain ⟨hns, hfind⟩ := ih _ u hu
        have hne1 : k u ≠ k a := fun he => hns (by simp [he])
        have hns2 : k u ∉ seen := fun he => hns (List.mem_cons_of_mem _ he)
        exact ⟨hns2, by
          rw [List.find?_cons_of_neg _ (by simpa using fun he => hne1 he.symm), hfind]⟩

/-- Splitting the length of a list by a decidable predicate. -/
theorem length_filter_add_length_filter_not {α : Type} (p : α → Prop)
    [DecidablePred p] :
    ∀ m : List α, (m.filter (fun x => decide (p x))).length
      + (m.filter (fun x => !decide (p x))).length = m.length := by
  intro m
  induction m with
  | nil => rfl
  | cons a t ih =>
    by_cases hp : p a <;>
      simp [List.filter_cons, hp, ih] <;> omega

/-- Counting each bucket once over a covering, duplicate-free list of
bucket names accounts for every element exactly once. -/
theorem sum_filter_lengths {α : Type} (f : α → String) :
    ∀ ps : List String, ∀ l : List α, ps.Nodup → (∀ x ∈ l, f x ∈ ps) →
      (ps.map (fun p => (l.filter (fun x => decide (f x = p))).length)).sum
        = l.length := by
  intro ps
  induction ps with
  | nil =>
    intro l _ hcov
    have hl : l = [] :=
      List.eq_nil_iff_forall_not_mem.mpr (fun x hx => by simpa using hcov x hx)
    rw [hl]
    rfl
  | cons p ps ih =>
    intro l hnd hcov
    obtain ⟨hp, hnd'⟩ := List.nodup_cons.mp hnd
    simp only [List.map_cons, List.sum_cons]
    have hrest : ∀ q ∈ ps,
        (l.filter (fun x => decide (f x = q))).length
          = ((l.filter (fun x => !decide (f x = p))).filter
              (fun x => decide (f x = q))).length := by
      intro q hq
      rw [List.filter_filter]
      congr 1
      apply List.filter_congr
      intro x _
      by_cases hfx : f x = q
      · have hqp : ¬(q = p) := fun he => hp (he ▸ hq)
        have hne : ¬(f x = p) := by
          rw [hfx]
          exact hqp
        simp [hfx, hne, hqp]
      · simp [hfx]
    have hmapeq :
        (ps.map (fun q => (l.filter (fun x => decide (f x = q))).length))
          = (ps.map (fun q => ((l.filter (fun x => !decide (f x = p))).filter
              (fun x => decide (f x = q))).length)) :=
      List.map_congr_left (fun q hq => hrest q hq)
    rw [hmapeq, ih (l.filter (fun x => !decide (f x = p))) hnd' ?hcov2]
    · exact length_filter_add_length_filter_not (fun x => f x = p) l
    case hcov2 =>
      intro x hx
      obtain ⟨hxl, hxp⟩ := List.mem_filter.mp hx
      have := hcov x hxl
      rcases List.mem_cons.mp this with he | he
      · exfalso
        simp only [Bool.not_eq_true', decide_eq_false_iff_not] at hxp
        exact hxp he
      · exact he

/-! Order properties of the sort key. -/

theorem charListLT_cons (a b : Char) (as bs : List Char) :
    charListLT (a :: as) (b :: bs) =
      if a.toNat < b.toNat then true
      else if b.toNat < a.toNat then false
      else charListLT as bs := rfl

theorem charListLT_trichotomy : ∀ as bs : List Char,
    charListLT as bs = true ∨ charListLT bs as = true ∨ as = bs := by
  intro as
  induction as with
  | nil =>
    intro bs
    cases bs with
    | nil => exact Or.inr (Or.inr rfl)
    | cons b bs => exact Or.inl rfl
  | cons a as ih =>
    intro bs
    cases bs with
    | nil => exact Or.inr (Or.inl rfl)
    | cons b bs =>
      rcases Nat.lt_trichotomy a.toNat b.toNat with h | h | h
      · exact Or.inl (by rw [charListLT_cons, if_pos h])
      · have hab : a = b := Char.ext (UInt32.ext h)
        subst hab
        rcases ih bs with h1 | h1 | h1
        · exact Or.inl
            (by rw [charListLT_cons, if_neg (by omega), if_neg (by omega)]; exact h1)
        · exact Or.inr (Or.inl
            (by rw [charListLT_cons, if_neg (by omega), if_neg (by omega)]; exact h1))
        · exact Or.inr (Or.inr (by rw [h1]))
      · exact Or.inr (Or.inl (by rw [charListLT_cons, if_pos h]))

theorem charListLT_trans : ∀ as bs cs : List Char,
    charListLT as bs = true → charListLT bs cs = true → charListLT as cs = true := by
  intro as
  induction as with
  | nil =>
    intro bs cs h1 h2
    cases bs with
    | nil => exact absurd h1 (by simp [charListLT])
    | cons b bs =>
      cases cs with
      | nil => exact absurd h2 (by simp [charListLT])
      | cons c cs => rfl
  | cons a as ih =>
    intro bs cs h1 h2
    cases bs with
    | nil => exact absurd h1 (by simp [charListLT])
    | cons b bs =>
      cases cs with
      | nil => exact absurd h2 (by simp [charListLT])
      | cons c cs =>
        rw [charListLT_cons] at h1 h2 ⊢
        by_cases hab : a.toNat < b.toNat
        · by_cases hbc : b.toNat < c.toNat
          · rw [if_pos (by omega)]
          · by_cases hcb : c.toNat < b.toNat
            · rw [if_neg hbc, if_pos hcb] at h2
              exact absurd h2 (by simp)
            · rw [if_pos (by omega)]
        · by_cases hba : b.toNat < a.toNat
          · rw [if_neg hab, if_pos hba] at h1
            exact absurd h1 (by simp)
          · rw [if_neg hab, if_neg hba] at h1
            by_cases hbc : b.toNat < c.toNat
            · rw [if_pos (by omega)]
            · by_cases hcb : c.toNat < b.toNat
              · rw [if_neg hbc, if_pos hcb] at h2
                exact absurd h2 (by simp)
              · rw [if_neg hbc, if_neg hcb] at h2
                rw [if_neg (by omega), if_neg (by omega)]
                exact ih bs cs h1 h2

instance : IsTotal Row keyLE where
  total a b := by
    simp only [keyLE, keyLEb, strLE, strLT, Bool.or_eq_true, Bool.and_eq_true,
      decide_eq_true_eq]
    rcases charListLT_trichotomy a.pfx.data b.pfx.data with h | h | h
    · exact Or.inl (Or.inl h)
    · exact Or.inr (Or.inl h)
    · have hp : a.pfx = b.pfx := String.ext h
      rcases charListLT_trichotomy a.num.data b.num.data with h2 | h2 | h2
      · exact Or.inl (Or.inr ⟨hp, Or.inl h2⟩)
      · exact Or.inr (Or.inr ⟨hp.symm, Or.inl h2⟩)
      · exact Or.inl (Or.inr ⟨hp, Or.inr (String.ext h2)⟩)

instance : IsTrans Row keyLE where
  trans a b c hab hbc := by
    simp only [keyLE, keyLEb, strLE, strLT, Bool.or_eq_true, Bool.and_eq_true,
      decide_eq_true_eq] at hab hbc ⊢
    rcases hab with h1 | ⟨h1e, h1n⟩
    · rcases hbc with h2 | ⟨h2e, _⟩
      · exact Or.inl (charListLT_trans _ _ _ h1 h2)
      · exact Or.inl (by rw [← h2e]; exact h1)
    · rcases hbc with h2 | ⟨h2e, h2n⟩
      · exact Or.inl (by rw [h1e]; exact h2)
      · refine Or.inr ⟨h1e.trans h2e, ?_⟩
        rcases h1n with hn1 | hn1
        · rcases h2n with hn2 | hn2
          · exact Or.inl (charListLT_trans _ _ _ hn1 hn2)
          · exact Or.inl (by rw [← hn2]; exact hn1)
        · rcases h2n with hn2 | hn2
          · exact Or.inl (by rw [hn1]; exact hn2)
          · exact Or.inr (hn1.trans hn2)

/-- Joining a non-empty list of non-empty strings with `joinSep` is non-empty. -/
theorem joinSep_ne_empty (sep : String) :
    ∀ l : List String, l ≠ [] → (∀ x ∈ l, x ≠ "") → joinSep sep l ≠ "" := by
  intro l
  induction l with
  | nil => intro h _; exact absurd rfl h
  | cons x xs _ =>
    intro _ hne
    have hx : x ≠ "" := hne x (by simp)
    have hxlen : 0 < x.length := by
      cases hq : x.length with
      | zero =>
        exfalso
        apply hx
        apply String.ext
        cases x with
        | mk d =>
          cases d with
          | nil => rfl
          | cons a t => simp [String.length] at hq
      | succ n => omega
    cases xs with
    | nil =>
      exact hx
    | cons y ys =>
      show x ++ sep ++ joinSep sep (y :: ys) ≠ ""
      intro he
      have hlen := congrArg String.length he
      rw [String.length_append, String.length_append] at hlen
      have h0 : ("" : String).length = 0 := rfl
      rw [h0] at hlen
      omega

/-! ## Claim theorems -/

/-- C5: text normalization is total and idempotent — for every string
`s`, `normalize_text (normalize_text s) = normalize_text s`, and
normalization of the empty input (to which a missing cell is mapped by
`fillna("")` before normalization) yields the empty string. -/
theorem normalize_total_and_idempotent :
    (∀ s : String, normalize_text (normalize_text s) = normalize_text s) ∧
    normalize_text "" = "" :=
  ⟨normalize_text_idem, rfl⟩

/-- C2: for every input table, the tiered keyword decision of the precise
analyzer equals, row by row on the normalized text: some primary pattern
matches, OR (some secondary pattern matches AND some context pattern
matches). -/
theorem keyword_decision_tiered (rows : List Row) :
    AiAnalysis.keyword_match_series rows
      = (AiAnalysis.text_norm_series rows).map
          (fun t => AiAnalysis.matches_any t AiAnalysis.primary_patterns
            || (AiAnalysis.matches_any t AiAnalysis.secondary_patterns
                && AiAnalysis.matches_any t AiAnalysis.context_patterns)) := by
  unfold AiAnalysis.keyword_match_series AiAnalysis.primary_match_series
    AiAnalysis.secondary_match_series AiAnalysis.context_match_series
  rw [List.zipWith_map (fun a b => a && b) _ _ _ _, List.zipWith_same,
    List.zipWith_map (fun a b => a || b) _ _ _ _, List.zipWith_same]

/-- C4: for every row, the final flag is
`classify_tiers(text) OR (fuzzy_score(text) >= threshold)`; with fuzzy
matching disabled the flag is the tiered result alone, so the enabled
flag is the disabled flag OR'd with the fuzzy hit (disabling never adds
rows). -/
theorem fuzzy_fallback_structure (pr : String → String → Nat) (th : Nat) (r : Row) :
    AiAnalysis.is_ai_related pr th false r
      = (AiAnalysis.keyword_match (AiAnalysis.row_text_norm r)
          || AiAnalysis.fuzzy_hit pr th (AiAnalysis.row_text_norm r)) ∧
    AiAnalysis.is_ai_related pr th true r
      = AiAnalysis.keyword_match (AiAnalysis.row_text_norm r) ∧
    AiAnalysis.is_ai_related pr th false r
      = (AiAnalysis.is_ai_related pr th true r
          || AiAnalysis.fuzzy_hit pr th (AiAnalysis.row_text_norm r)) := by
  refine ⟨rfl, ?_, ?_⟩
  · simp [AiAnalysis.is_ai_related]
  · simp [AiAnalysis.is_ai_related]

/-- C8: a row with empty (or missing, filled to empty) title and
description is classified without failure: its joint text normalizes to
the empty string, every tier match is false, the fuzzy score is 0, and
`is_ai_related` is false (for any positive threshold — both analyzers
default to a positive one). -/
theorem degenerate_row_safe (p n : String) (pr : String → String → Nat) (th : Nat)
    (d : Bool) (hth : 0 < th) :
    AiAnalysis.row_text_norm ⟨p, n, "", ""⟩ = "" ∧
    AiAnalysis.matches_any "" AiAnalysis.primary_patterns = false ∧
    AiAnalysis.matches_any "" AiAnalysis.secondary_patterns = false ∧
    AiAnalysis.matches_any "" AiAnalysis.context_patterns = false ∧
    AiAnalysis.max_fuzzy_score pr "" AiAnalysis.fuzzy_phrases_norm = 0 ∧
    AiAnalysis.is_ai_related pr th d ⟨p, n, "", ""⟩ = false := by
  refine ⟨rfl, rfl, rfl, rfl, rfl, ?_⟩
  have h1 : AiAnalysis.keyword_match (AiAnalysis.row_text_norm ⟨p, n, "", ""⟩) = false := rfl
  have h2 : AiAnalysis.fuzzy_hit pr th (AiAnalysis.row_text_norm ⟨p, n, "", ""⟩) = false := by
    unfold AiAnalysis.fuzzy_hit
    have h0 : AiAnalysis.max_fuzzy_score pr
        (AiAnalysis.row_text_norm ⟨p, n, "", ""⟩) AiAnalysis.fuzzy_phrases_norm = 0 := rfl
    rw [h0]
    exact decide_eq_false (by omega)
  unfold AiAnalysis.is_ai_related
  rw [h1]
  cases d <;> simp [h2]

/-- C3: a course whose only classification-relevant word is "ethics"
(title "Professional Ethics", description "Discusses moral
responsibility.") classifies `is_ai_related = false` when the fuzzy score
stays below the threshold; the same text extended with "Uses artificial
intelligence and raises ethics concerns" classifies `true`. -/
theorem ethics_gating (pr : String → String → Nat) (th : Nat)
    (hfz : AiAnalysis.max_fuzzy_score pr (AiAnalysis.row_text_norm ethics_row)
      AiAnalysis.fuzzy_phrases_norm < th) :
    AiAnalysis.is_ai_related pr th false ethics_row = false ∧
    AiAnalysis.is_ai_related pr th false ethics_ai_row = true := by
  constructor
  · have h1 : AiAnalysis.keyword_match (AiAnalysis.row_text_norm ethics_row) = false := by
      decide
    have h2 : AiAnalysis.fuzzy_hit pr th (AiAnalysis.row_text_norm ethics_row) = false := by
      unfold AiAnalysis.fuzzy_hit
      exact decide_eq_false (by omega)
    unfold AiAnalysis.is_ai_related
    simp [h1, h2]
  · have h1 : AiAnalysis.keyword_match (AiAnalysis.row_text_norm ethics_ai_row) = true := by
      decide
    unfold AiAnalysis.is_ai_related
    simp [h1]

/-- Witness for C3: at the precise analyzer's default threshold 95 with
the modelled scorer, the hypothesis holds and the two classifications come
out false and true. -/
theorem ethics_gating_witness :
    AiAnalysis.max_fuzzy_score partial_ratio_model (AiAnalysis.row_text_norm ethics_row)
        AiAnalysis.fuzzy_phrases_norm < 95 ∧
    AiAnalysis.is_ai_related partial_ratio_model 95 false ethics_row = false ∧
    AiAnalysis.is_ai_related partial_ratio_model 95 false ethics_ai_row = true :=
  ⟨by decide, ethics_gating partial_ratio_model 95 (by decide)⟩

/-- Witness for C8: at threshold 95 a fully empty row gets
`is_ai_related = false`. -/
theorem degenerate_row_safe_witness :
    0 < 95 ∧
    AiAnalysis.is_ai_related partial_ratio_model 95 false ⟨"CS", "101", "", ""⟩ = false :=
  ⟨by decide,
    (degenerate_row_safe "CS" "101" partial_ratio_model 95 false (by decide)).2.2.2.2.2⟩

/-- C1 counterexample: on the two-row table `[cs599_old, cs599_new]` with
one duplicate key `("CS", "599")`, the legacy analyzer
(`ai_course_analysis.py`, one of the claim's cited code places) retains the
first row's own flag `false` as the unique-course flag although the OR over
the duplicate group is `true` — the claimed OR-aggregation is false there. -/
theorem dedup_flag_counterexample :
    AiCourseAnalysis.unique_courses partial_ratio_model 85 [cs599_old, cs599_new]
      = [⟨cs599_old, false⟩] ∧
    [cs599_old, cs599_new].any
      (fun r => AiCourseAnalysis.is_ai_related partial_ratio_model 85 r) = true ∧
    ¬(∀ v ∈ AiCourseAnalysis.unique_courses partial_ratio_model 85 [cs599_old, cs599_new],
        v.is_ai_related = [cs599_old, cs599_new].any
          (fun r => decide (key r = key v.row)
            && AiCourseAnalysis.is_ai_related partial_ratio_model 85 r)) := by
  refine ⟨by decide, by decide, ?_⟩
  intro h
  have := h ⟨cs599_old, false⟩ (by decide)
  revert this
  decide

/-- C1 (amended): in the precise analyzer (`ai_analysis.py`) the
unique-course flag is the OR of `is_ai_related` over the whole duplicate
group of the course's `(prefix, number)` key; in the legacy analyzer
(`ai_course_analysis.py`) the unique-course flag is merely the flag of the
single retained (canonical) row. -/
theorem dedup_flag_semantics (pr : String → String → Nat) (thp thl : Nat) (d : Bool)
    (rows : List Row) :
    (∀ u ∈ AiAnalysis.unique_courses pr thp d rows,
      u.is_ai_related = rows.any
        (fun r => decide (key r = key u.row) && AiAnalysis.is_ai_related pr thp d r)) ∧
    (∀ v ∈ AiCourseAnalysis.unique_courses pr thl rows,
      v.is_ai_related = AiCourseAnalysis.is_ai_related pr thl v.row) := by
  constructor
  · intro u hu
    obtain ⟨r, hr, rfl⟩ := List.mem_map.mp hu
    rfl
  · intro v hv
    have hv2 : v ∈ AiCourseAnalysis.classified pr thl rows :=
      mem_of_mem_drop_duplicates_aux _ _ _ v hv
    obtain ⟨r, hr, rfl⟩ := List.mem_map.mp hv2
    rfl

/-- Witness for C1 (amended) on the duplicate pair: the precise analyzer's
unique course carries the group OR (true), the legacy one carries the
canonical row's own flag (false). -/
theorem dedup_flag_semantics_witness :
    (FlaggedRow.mk cs599_old true).is_ai_related
      = [cs599_old, cs599_new].any
          (fun r => decide (key r = key (FlaggedRow.mk cs599_old true).row)
            && AiAnalysis.is_ai_related partial_ratio_model 95 false r) ∧
    (FlaggedRow.mk cs599_old false).is_ai_related
      = AiCourseAnalysis.is_ai_related partial_ratio_model 85
          (FlaggedRow.mk cs599_old false).row := by
  obtain ⟨h1, h2⟩ :=
    dedup_flag_semantics partial_ratio_model 95 85 false [cs599_old, cs599_new]
  exact ⟨h1 ⟨cs599_old, true⟩ (by decide), h2 ⟨cs599_old, false⟩ (by decide)⟩

/-- C6: for every input table, the `total_courses` values of the
prefix-totals output (one bucket per distinct prefix value of the
unique-course table, an empty prefix value included) sum to the
`total_unique_courses` summary value, and every prefix value occurring in
the unique-course table — the empty one included — owns a bucket. -/
theorem prefix_totals_sum (pr : String → String → Nat) (th : Nat) (d : Bool)
    (rows : List Row) :
    ((AiAnalysis.prefix_totals pr th d rows).map Prod.snd).sum
      = AiAnalysis.total_unique_courses pr th d rows ∧
    ∀ p : String, (∃ u ∈ AiAnalysis.unique_courses pr th d rows, u.row.pfx = p) →
      p ∈ (AiAnalysis.prefix_totals pr th d rows).map Prod.fst := by
  constructor
  · show ((AiAnalysis.prefix_totals pr th d rows).map Prod.snd).sum
      = (AiAnalysis.unique_courses pr th d rows).length
    unfold AiAnalysis.prefix_totals
    rw [List.map_map]
    have hcomp : (Prod.snd ∘ fun p => (p, ((AiAnalysis.unique_courses pr th d rows).filter
          (fun u => decide (u.row.pfx = p))).length))
        = fun p => ((AiAnalysis.unique_courses pr th d rows).filter
          (fun u => decide (u.row.pfx = p))).length := rfl
    rw [hcomp]
    apply sum_filter_lengths (fun u : FlaggedRow => u.row.pfx)
    · exact ((List.perm_insertionSort _ _).symm).nodup (List.nodup_dedup _)
    · intro u hu
      have h1 := List.mem_map_of_mem (fun u : FlaggedRow => u.row.pfx) hu
      exact ((List.perm_insertionSort _ _).mem_iff).mpr (List.mem_dedup.mpr h1)
  · intro p hp
    obtain ⟨u, hu, hpu⟩ := hp
    unfold AiAnalysis.prefix_totals
    rw [List.map_map]
    have hcomp : (Prod.fst ∘ fun p => (p, ((AiAnalysis.unique_courses pr th d rows).filter
          (fun u => decide (u.row.pfx = p))).length)) = id := rfl
    rw [hcomp, List.map_id]
    subst hpu
    have h1 := List.mem_map_of_mem (fun u : FlaggedRow => u.row.pfx) hu
    exact ((List.perm_insertionSort _ _).mem_iff).mpr (List.mem_dedup.mpr h1)

/-- Witness for C6 on a table containing an empty-prefix row: the bucket
counts sum to the unique-course total, and the empty prefix owns a
bucket. -/
theorem prefix_totals_sum_witness :
    ((AiAnalysis.prefix_totals partial_ratio_model 95 false
        [blank_prefix_row, cs_row]).map Prod.snd).sum
      = AiAnalysis.total_unique_courses partial_ratio_model 95 false
          [blank_prefix_row, cs_row] ∧
    "" ∈ (AiAnalysis.prefix_totals partial_ratio_model 95 false
        [blank_prefix_row, cs_row]).map Prod.fst := by
  obtain ⟨h1, h2⟩ :=
    prefix_totals_sum partial_ratio_model 95 false [blank_prefix_row, cs_row]
  exact ⟨h1, h2 "" ⟨⟨blank_prefix_row, false⟩, by decide, rfl⟩⟩

/-- C7: canonical-row selection is deterministic — the rows are ordered
ascending by the `(prefix, number)` key, each unique course's non-flag
columns are those of the first row of its key in the sorted order, and
equal inputs give equal unique-course outputs. -/
theorem canonical_row_selection (pr : String → String → Nat) (th : Nat) (d : Bool)
    (rows : List Row) :
    List.Sorted keyLE (sortRows rows) ∧
    (∀ u ∈ AiAnalysis.unique_courses pr th d rows,
      (sortRows rows).find? (fun r => decide (key r = key u.row)) = some u.row) ∧
    (∀ rows2, rows = rows2 →
      AiAnalysis.unique_courses pr th d rows = AiAnalysis.unique_courses pr th d rows2) := by
  refine ⟨List.sorted_insertionSort keyLE rows, ?_, ?_⟩
  · intro u hu
    obtain ⟨r, hr, rfl⟩ := List.mem_map.mp hu
    exact (find?_drop_duplicates_aux key (sortRows rows) [] r hr).2
  · intro rows2 h
    rw [h]

/-- Every label the broad analyzer can record is a non-empty string. -/
theorem broad_hits_labels_ne_empty (t : String) :
    ∀ x ∈ AiAnalysisBroad.broad_hits t, x ≠ "" := by
  intro x hx
  obtain ⟨lp, hlp, rfl⟩ := List.mem_map.mp hx
  have hmem := (List.mem_filter.mp hlp).1
  have hall : ∀ lp ∈ AiAnalysisBroad.BROAD_PATTERNS, ¬(Prod.fst lp = "") := by decide
  exact hall lp hmem

/-- C9 counterexample: on `meta_row` (normalized text "metadata sciences")
no broad rule matches, so the set of matching labels is empty and its
sorted join is `""`; yet the fuzzy fallback fires (`partial_ratio` of a
text against an exact contiguous substring of it is 100 ≥ 85) and the
recorded reason is "fuzzy:data science" — not the joined label set. -/
theorem broad_reason_counterexample :
    AiAnalysisBroad.broad_hits (AiAnalysis.row_text_norm meta_row) = [] ∧
    AiAnalysisBroad.is_ai_candidate partial_ratio_model 85 false meta_row = true ∧
    AiAnalysisBroad.broad_final_reason partial_ratio_model 85 false meta_row
      = "fuzzy:data science" ∧
    AiAnalysisBroad.broad_final_reason partial_ratio_model 85 false meta_row
      ≠ joinSep ","
          (sortStr (AiAnalysisBroad.broad_hits (AiAnalysis.row_text_norm meta_row)).dedup) := by
  exact ⟨by decide, by decide, by decide, by decide⟩

/-- C9 (amended): in the broad-recall variant each labeled rule fires
independently (no secondary/context gating); the per-row boolean is
"some rule matched OR the fuzzy score reached the threshold"; when at
least one rule matched, the recorded reason is the sorted, joined set of
distinct matching labels; a row where no rule matched records the fuzzy
diagnostic `fuzzy:<phrase>` (or `""`). -/
theorem broad_no_gating (pr : String → String → Nat) (th : Nat) (dis : Bool) (r : Row) :
    AiAnalysisBroad.is_ai_candidate pr th dis r
      = (!(AiAnalysisBroad.broad_hits (AiAnalysis.row_text_norm r)).isEmpty
          || AiAnalysisBroad.broad_fuzzy_hit pr th dis (AiAnalysis.row_text_norm r)) ∧
    (AiAnalysisBroad.broad_hits (AiAnalysis.row_text_norm r) ≠ [] →
      AiAnalysisBroad.broad_final_reason pr th dis r
        = joinSep ","
            (sortStr (AiAnalysisBroad.broad_hits (AiAnalysis.row_text_norm r)).dedup)) ∧
    (AiAnalysisBroad.broad_hits (AiAnalysis.row_text_norm r) = [] →
      AiAnalysisBroad.broad_final_reason pr th dis r
        = (if AiAnalysisBroad.broad_fuzzy_hit pr th dis (AiAnalysis.row_text_norm r)
              && AiAnalysisBroad.broad_fuzzy_phrase pr th dis (AiAnalysis.row_text_norm r) ≠ ""
            then "fuzzy:"
              ++ AiAnalysisBroad.broad_fuzzy_phrase pr th dis (AiAnalysis.row_text_norm r)
            else "")) := by
  refine ⟨rfl, ?_, ?_⟩
  · intro hne
    have hisempty : (AiAnalysisBroad.broad_hits (AiAnalysis.row_text_norm r)).isEmpty = false :=
      List.isEmpty_eq_false.mpr hne
    have hre : AiAnalysisBroad.broad_reason (AiAnalysis.row_text_norm r)
        = joinSep ","
            (sortStr (AiAnalysisBroad.broad_hits (AiAnalysis.row_text_norm r)).dedup) := by
      unfold AiAnalysisBroad.broad_reason
      rw [if_neg (by rw [hisempty]; exact Bool.false_ne_true)]
    have hlabels : ∀ x ∈ sortStr (AiAnalysisBroad.broad_hits (AiAnalysis.row_text_norm r)).dedup,
        x ≠ "" := by
      intro x hx
      have hx2 : x ∈ (AiAnalysisBroad.broad_hits (AiAnalysis.row_text_norm r)).dedup :=
        ((List.perm_insertionSort _ _).mem_iff).mp hx
      exact broad_hits_labels_ne_empty _ x (List.mem_dedup.mp hx2)
    have hsne : sortStr (AiAnalysisBroad.broad_hits (AiAnalysis.row_text_norm r)).dedup ≠ [] := by
      intro he
      have hp : (sortStr (AiAnalysisBroad.broad_hits (AiAnalysis.row_text_norm r)).dedup).Perm
          (AiAnalysisBroad.broad_hits (AiAnalysis.row_text_norm r)).dedup :=
        List.perm_insertionSort strLEp _
      rw [he] at hp
      exact hne ((List.dedup_eq_nil _).mp (hp.symm.eq_nil))
    have hjne : joinSep ","
        (sortStr (AiAnalysisBroad.broad_hits (AiAnalysis.row_text_norm r)).dedup) ≠ "" :=
      joinSep_ne_empty _ _ hsne hlabels
    unfold AiAnalysisBroad.broad_final_reason
    rw [if_pos (show AiAnalysisBroad.broad_reason (AiAnalysis.row_text_norm r) ≠ "" by
      rw [hre]; exact hjne)]
    exact hre
  · intro hnil
    have hre0 : AiAnalysisBroad.broad_reason (AiAnalysis.row_text_norm r) = "" := by
      unfold AiAnalysisBroad.broad_reason
      rw [hnil]
      rfl
    unfold AiAnalysisBroad.broad_final_reason
    rw [if_neg (by rw [hre0]; simp)]

/-- Witness for C9 (amended) on a row matching the `machine_learning`
rule: the boolean is the no-gating disjunction and the recorded reason is
the sorted joined label set. -/
theorem broad_no_gating_witness :
    AiAnalysisBroad.is_ai_candidate partial_ratio_model 85 false ml_row
      = (!(AiAnalysisBroad.broad_hits (AiAnalysis.row_text_norm ml_row)).isEmpty
          || AiAnalysisBroad.broad_fuzzy_hit partial_ratio_model 85 false
              (AiAnalysis.row_text_norm ml_row)) ∧
    AiAnalysisBroad.broad_final_reason partial_ratio_model 85 false ml_row
      = joinSep ","
          (sortStr (AiAnalysisBroad.broad_hits (AiAnalysis.row_text_norm ml_row)).dedup) := by
  obtain ⟨h1, h2, h3⟩ := broad_no_gating partial_ratio_model 85 false ml_row
  exact ⟨h1, h2 (by decide)⟩

/-- C10: the legacy analyzer's keyword match is unanchored substring
containment on normalized text — any row whose normalized joint text
contains a normalized keyword as a substring (even inside a longer word)
is flagged `is_ai_related = true`. -/
theorem legacy_unanchored_substring (pr : String → String → Nat) (th : Nat) (r : Row)
    (h : ∃ k ∈ AiCourseAnalysis.keyword_norms,
      k.data <:+: (AiAnalysis.row_text_norm r).data) :
    AiCourseAnalysis.is_ai_related pr th r = true := by
  obtain ⟨k, hk, hinf⟩ := h
  have hkne : ∀ k2 ∈ AiCourseAnalysis.keyword_norms, k2.data ≠ [] := by decide
  have htne : AiAnalysis.row_text_norm r ≠ "" := by
    intro he
    rw [he] at hinf
    exact hkne k hk (List.infix_nil.mp hinf)
  have hck : AiCourseAnalysis.contains_keyword (AiAnalysis.row_text_norm r)
      AiCourseAnalysis.keyword_norms = true := by
    unfold AiCourseAnalysis.contains_keyword
    rw [if_neg htne]
    exact List.any_eq_true.mpr ⟨k, hk, decide_eq_true hinf⟩
  unfold AiCourseAnalysis.is_ai_related
  rw [hck]
  rfl

/-- Witness for C10: "reagents quantitative reagents lab" contains the
normalized keyword "agent" only inside the word "reagents", and the row is
flagged. -/
theorem legacy_unanchored_substring_witness :
    (∃ k ∈ AiCourseAnalysis.keyword_norms,
      k.data <:+: (AiAnalysis.row_text_norm reagents_row).data) ∧
    AiCourseAnalysis.is_ai_related partial_ratio_model 85 reagents_row = true := by
  have h : ∃ k ∈ AiCourseAnalysis.keyword_norms,
      k.data <:+: (AiAnalysis.row_text_norm reagents_row).data := by decide
  exact ⟨h, legacy_unanchored_substring partial_ratio_model 85 reagents_row h⟩

/-- Witness for C7 on a two-row table given in reversed key order. -/
theorem canonical_row_selection_witness :
    List.Sorted keyLE (sortRows [mat_row, cs_row]) ∧
    (sortRows [mat_row, cs_row]).find?
        (fun r => decide (key r = key (FlaggedRow.mk cs_row false).row)) = some cs_row ∧
    AiAnalysis.unique_courses partial_ratio_model 95 false [mat_row, cs_row]
      = AiAnalysis.unique_courses partial_ratio_model 95 false [mat_row, cs_row] := by
  obtain ⟨h1, h2, h3⟩ :=
    canonical_row_selection partial_ratio_model 95 false [mat_row, cs_row]
  exact ⟨h1, h2 ⟨cs_row, false⟩ (by decide), h3 _ rfl⟩

end NAU
